import Mathlib

/-!
Bounded FIFO queue (`src/src/lab.c`)

A shallow embedding of the monitor-style ring buffer of `lab.c` and proofs of
its sequential contract.

Modelling decisions:

* `int` fields are exact integers (`Int`); `%` on `int` is C's truncating
  remainder, `Int.tmod`.
  `enqueue32` and `dequeue32` are the same operations with 32-bit sums, and
  are shown to agree with the exact ones on reachable states.
* `void *` item handles are addresses (`Nat`), `NULL` being address `0`.
* The `malloc`-ed array is a list of `capacity` slots; a slot is `none` until
  something has been stored in it (its content is indeterminate in C).
* Every public function runs its body under `q->mutex`, so a call that gets
  past its wait loop is one atomic transition of the queue record.  A call
  whose wait-loop condition holds suspends in `pthread_cond_wait` with the
  record untouched; this is the outcome `Outcome.wait`.
* An access outside the array, a read of a slot that was never written and a
  remainder by zero are undefined behaviour in C: the outcome `Outcome.ub`.
* The mutex and the two condition variables carry no data of their own; their
  creation and destruction is recorded as a list of `Event`s.  Destroying a
  primitive that is not initialised, or freeing memory that is not held, is
  undefined: `run_events` replays a list of events and stops there, and
  `queue_init_run` is the constructor call with that taken into account.
-/

namespace Lab

/-- Item handles: a C `void *` value, identified with its address. -/
abbrev Ptr := Nat

/-- The null pointer. -/
def NULL : Ptr := 0

/-- The record `struct queue` of `lab.c`, without its synchronisation primitives. -/
structure queue where
  buffer : List (Option Ptr)
  capacity : Int
  head : Int
  tail : Int
  size : Int
  shutdown : Bool
deriving DecidableEq, Repr

/-- The handle type `queue_t`: a pointer to a `struct queue`, possibly `NULL` (`none`). -/
abbrev queue_t := Option queue

/-- The three synchronisation primitives stored in a `struct queue`. -/
inductive Prim where
  | mutex
  | not_empty
  | not_full
deriving DecidableEq, Repr

/-- Resource events performed by the constructor and the destructor. -/
inductive Event where
  | set_errno_EINVAL
  | malloc_queue (ok : Bool)
  | malloc_buffer (slots : Int) (ok : Bool)
  | init (p : Prim) (ok : Bool)
  | destroy (p : Prim)
  | free_buffer
  | free_queue
deriving DecidableEq, Repr

/-- Which of the fallible library calls made by `alloc_queue` succeed. -/
structure Env where
  malloc_queue_ok : Bool
  malloc_buffer_ok : Bool
  mutex_init_ok : Bool
  not_empty_init_ok : Bool
  not_full_init_ok : Bool
deriving DecidableEq, Repr

/-- The environment in which every allocation and initialisation succeeds. -/
def Env.all_ok : Env :=
  { malloc_queue_ok := true, malloc_buffer_ok := true, mutex_init_ok := true,
    not_empty_init_ok := true, not_full_init_ok := true }

/-- The chain `mutex_init != 0 || cond_init(not_empty) != 0 || cond_init(not_full) != 0`
of `alloc_queue`, evaluated left to right with short circuit.  The first component
is the value of the disjunction (some initialisation failed). -/
def init_prims (env : Env) : Bool × List Event :=
  if !env.mutex_init_ok then
    (true, [Event.init Prim.mutex false])
  else if !env.not_empty_init_ok then
    (true, [Event.init Prim.mutex true, Event.init Prim.not_empty false])
  else if !env.not_full_init_ok then
    (true, [Event.init Prim.mutex true, Event.init Prim.not_empty true,
            Event.init Prim.not_full false])
  else
    (false, [Event.init Prim.mutex true, Event.init Prim.not_empty true,
             Event.init Prim.not_full true])

/-- The helper `alloc_queue`: the resource events it performs, in program order, and
the handle it returns provided every call in that list returns.  Whether the list is
defined at all is decided by `run_events`; see `queue_init_run`. -/
def alloc_queue (env : Env) (capacity : Int) : queue_t × List Event :=
  if capacity ≤ 0 then
    (none, [Event.set_errno_EINVAL])
  else if !env.malloc_queue_ok then
    (none, [Event.malloc_queue false])
  else if !env.malloc_buffer_ok then
    (none, [Event.malloc_queue true, Event.malloc_buffer capacity false, Event.free_queue])
  else
    let q : queue :=
      { buffer := List.replicate capacity.toNat none, capacity := capacity,
        head := 0, tail := 0, size := 0, shutdown := false }
    let pre := [Event.malloc_queue true, Event.malloc_buffer capacity true]
    if (init_prims env).1 then
      (none, pre ++ (init_prims env).2 ++
        [Event.destroy Prim.mutex, Event.destroy Prim.not_empty, Event.destroy Prim.not_full,
         Event.free_buffer, Event.free_queue])
    else
      (some q, pre ++ (init_prims env).2)

/-- The public constructor `queue_init`. -/
def queue_init (env : Env) (capacity : Int) : queue_t × List Event :=
  alloc_queue env capacity

/-- The destructor `queue_destroy`: the record is gone afterwards. -/
def queue_destroy (q : queue_t) : queue_t × List Event :=
  match q with
  | none => (none, [])
  | some _ =>
    (none, [Event.destroy Prim.mutex, Event.destroy Prim.not_empty, Event.destroy Prim.not_full,
            Event.free_buffer, Event.free_queue])

/-- Result of one call of a blocking queue operation. -/
inductive Outcome (α : Type) where
  | ret (q : queue_t) (r : α)
  | wait
  | ub
deriving DecidableEq, Repr

/-- The assignment `buffer[i] = v`; `none` when `i` is outside the array. -/
def store (b : List (Option Ptr)) (i : Int) (v : Ptr) : Option (List (Option Ptr)) :=
  if 0 ≤ i ∧ i.toNat < b.length then some (b.set i.toNat (some v)) else none

/-- The read `buffer[i]`; `none` when `i` is outside the array or the slot was never written. -/
def load (b : List (Option Ptr)) (i : Int) : Option Ptr :=
  if i < 0 then none else b.getD i.toNat none

/-- The condition of the wait loop of `enqueue`. -/
def enqueue_wait_cond (s : queue) : Bool :=
  s.size == s.capacity && !s.shutdown

/-- The condition of the wait loop of `dequeue`. -/
def dequeue_wait_cond (s : queue) : Bool :=
  s.size == 0 && !s.shutdown

/-- The operation `enqueue`. -/
def enqueue (q : queue_t) (data : Ptr) : Outcome Unit :=
  match q with
  | none => Outcome.ret none ()
  | some s =>
    if enqueue_wait_cond s then Outcome.wait
    else if s.shutdown then Outcome.ret (some s) ()
    else
      match store s.buffer s.tail data with
      | none => Outcome.ub
      | some b =>
        if s.capacity = 0 then Outcome.ub
        else
          Outcome.ret
            (some { s with buffer := b, tail := (s.tail + 1).tmod s.capacity, size := s.size + 1 })
            ()

/-- The operation `dequeue`. -/
def dequeue (q : queue_t) : Outcome Ptr :=
  match q with
  | none => Outcome.ret none NULL
  | some s =>
    if dequeue_wait_cond s then Outcome.wait
    else if s.size = 0 then Outcome.ret (some s) NULL
    else
      match load s.buffer s.head with
      | none => Outcome.ub
      | some data =>
        if s.capacity = 0 then Outcome.ub
        else
          Outcome.ret
            (some { s with head := (s.head + 1).tmod s.capacity, size := s.size - 1 })
            data

/-- The operation `queue_shutdown`. -/
def queue_shutdown (q : queue_t) : queue_t :=
  match q with
  | none => none
  | some s => some { s with shutdown := true }

/-- The observer `is_empty`, with the record as it leaves it. -/
def is_empty (q : queue_t) : queue_t × Bool :=
  match q with
  | none => (none, true)
  | some s => (some s, s.size == 0)

/-- The observer `is_shutdown`, with the record as it leaves it. -/
def is_shutdown (q : queue_t) : queue_t × Bool :=
  match q with
  | none => (none, true)
  | some s => (some s, s.shutdown)

/-- One call of the public interface on an existing queue. -/
inductive Op where
  | enq (x : Ptr)
  | deq
  | shut
  | empty
  | isShut
deriving DecidableEq, Repr

/-- Value returned by a call. -/
inductive Val where
  | unit
  | ptr (p : Ptr)
  | bool (b : Bool)
deriving DecidableEq, Repr

/-- Performing one call. -/
def Op.run (o : Op) (q : queue_t) : Outcome Val :=
  match o with
  | Op.enq x =>
    match enqueue q x with
    | Outcome.ret q1 _ => Outcome.ret q1 Val.unit
    | Outcome.wait => Outcome.wait
    | Outcome.ub => Outcome.ub
  | Op.deq =>
    match dequeue q with
    | Outcome.ret q1 p => Outcome.ret q1 (Val.ptr p)
    | Outcome.wait => Outcome.wait
    | Outcome.ub => Outcome.ub
  | Op.shut => Outcome.ret (queue_shutdown q) Val.unit
  | Op.empty => Outcome.ret (is_empty q).1 (Val.bool (is_empty q).2)
  | Op.isShut => Outcome.ret (is_shutdown q).1 (Val.bool (is_shutdown q).2)

/-- Performing a sequence of calls one after the other, collecting what they return. -/
def run_ops (q : queue_t) : List Op → Outcome (List Val)
  | [] => Outcome.ret q []
  | o :: os =>
    match Op.run o q with
    | Outcome.ret q1 v =>
      match run_ops q1 os with
      | Outcome.ret q2 vs => Outcome.ret q2 (v :: vs)
      | Outcome.wait => Outcome.wait
      | Outcome.ub => Outcome.ub
    | Outcome.wait => Outcome.wait
    | Outcome.ub => Outcome.ub

/-- Calling `enqueue` on each item of a list, in order. -/
def enqueue_all (q : queue_t) : List Ptr → Outcome Unit
  | [] => Outcome.ret q ()
  | x :: xs =>
    match enqueue q x with
    | Outcome.ret q1 _ => enqueue_all q1 xs
    | Outcome.wait => Outcome.wait
    | Outcome.ub => Outcome.ub

/-- Calling `dequeue` a number of times, collecting the returned handles in order. -/
def dequeue_n (q : queue_t) : Nat → Outcome (List Ptr)
  | 0 => Outcome.ret q []
  | n + 1 =>
    match dequeue q with
    | Outcome.ret q1 p =>
      match dequeue_n q1 n with
      | Outcome.ret q2 ps => Outcome.ret q2 (p :: ps)
      | Outcome.wait => Outcome.wait
      | Outcome.ub => Outcome.ub
    | Outcome.wait => Outcome.wait
    | Outcome.ub => Outcome.ub

/-- States reachable from `queue_init C` by completed calls. -/
inductive Reachable (C : Int) : queue → Prop where
  | init (env : Env) (s : queue) : (queue_init env C).1 = some s → Reachable C s
  | step (s t : queue) (o : Op) (v : Val) :
      Reachable C s → Op.run o (some s) = Outcome.ret (some t) v → Reachable C t

/-- Logical contents: the slots `buffer[head], buffer[(head+1) mod capacity], ...`, `size` of them. -/
def contents (s : queue) : List (Option Ptr) :=
  (List.range s.size.toNat).map (fun (i : Nat) => load s.buffer ((s.head + (i : Int)) % s.capacity))

/-- Structural invariant of the ring: indices inside the array, occupancy within
the capacity, and the tail `size` positions after the head, cyclically. -/
def WF (s : queue) : Prop :=
  0 < s.capacity ∧ s.buffer.length = s.capacity.toNat ∧
  0 ≤ s.head ∧ s.head < s.capacity ∧
  0 ≤ s.size ∧ s.size ≤ s.capacity ∧
  s.tail = (if s.head + s.size < s.capacity then s.head + s.size
            else s.head + s.size - s.capacity)

instance (s : queue) : Decidable (WF s) := by
  unfold WF; infer_instance

/-- The state left by an `enqueue` that inserts into a well-formed ring. -/
def pushed (s : queue) (x : Ptr) : queue :=
  { s with buffer := s.buffer.set s.tail.toNat (some x),
           tail := (if s.tail + 1 = s.capacity then 0 else s.tail + 1),
           size := s.size + 1 }

/-- The state left by a `dequeue` that removes from a well-formed ring. -/
def popped (s : queue) : queue :=
  { s with head := (if s.head + 1 = s.capacity then 0 else s.head + 1),
           size := s.size - 1 }

/-- Invariant of reachable states: the ring is well formed and every slot of the
logical contents holds an item that was stored by `enqueue`. -/
def Inv (s : queue) : Prop :=
  WF s ∧ ∃ items : List Ptr, contents s = items.map some

/-- What each call returns on a queue that is shut down and empty. -/
def closed_val : Op → Val
  | Op.enq _ => Val.unit
  | Op.deq => Val.ptr NULL
  | Op.shut => Val.unit
  | Op.empty => Val.bool true
  | Op.isShut => Val.bool true

/-- A resource acquired by the constructor: the record, the array, or a primitive. -/
inductive Resource where
  | queue_mem
  | buffer_mem
  | prim (p : Prim)
deriving DecidableEq, Repr

/-- The resources held after one more event, for the bookkeeping of `bad_destroys`:
a destroy or free of something that is not held changes nothing here (it is what
`bad_destroys` reports and what `Event.step` rejects). -/
def Event.apply (held : List Resource) : Event → List Resource
  | Event.set_errno_EINVAL => held
  | Event.malloc_queue ok => if ok then Resource.queue_mem :: held else held
  | Event.malloc_buffer _ ok => if ok then Resource.buffer_mem :: held else held
  | Event.init p ok => if ok then Resource.prim p :: held else held
  | Event.destroy p => held.erase (Resource.prim p)
  | Event.free_buffer => held.erase Resource.buffer_mem
  | Event.free_queue => held.erase Resource.queue_mem

/-- The resources held after one more event; `none` when the event destroys a primitive
that is not initialised or frees memory that is not held, which is undefined. -/
def Event.step (held : List Resource) : Event → Option (List Resource)
  | Event.set_errno_EINVAL => some held
  | Event.malloc_queue ok => some (if ok then Resource.queue_mem :: held else held)
  | Event.malloc_buffer _ ok => some (if ok then Resource.buffer_mem :: held else held)
  | Event.init p ok => some (if ok then Resource.prim p :: held else held)
  | Event.destroy p =>
    if Resource.prim p ∈ held then some (held.erase (Resource.prim p)) else none
  | Event.free_buffer =>
    if Resource.buffer_mem ∈ held then some (held.erase Resource.buffer_mem) else none
  | Event.free_queue =>
    if Resource.queue_mem ∈ held then some (held.erase Resource.queue_mem) else none

/-- Replaying a list of events from the resources `held`: the resources held at the
end, or `none` as soon as one event is undefined. -/
def run_events : List Resource → List Event → Option (List Resource)
  | held, [] => some held
  | held, e :: es =>
    match Event.step held e with
    | none => none
    | some held2 => run_events held2 es

/-- One call of `queue_init`: undefined when its events are, otherwise it returns the
handle of `alloc_queue` and leaves the resources that `run_events` finds held. -/
def queue_init_run (env : Env) (capacity : Int) : Outcome (List Resource) :=
  match run_events [] (queue_init env capacity).2 with
  | none => Outcome.ub
  | some held => Outcome.ret (queue_init env capacity).1 held

/-- The primitives on which `destroy` is called while they are not initialised. -/
def bad_destroys : List Resource → List Event → List Prim
  | _, [] => []
  | held, Event.destroy p :: es =>
    (if Resource.prim p ∈ held then [] else [p]) ++
      bad_destroys (Event.apply held (Event.destroy p)) es
  | held, e :: es => bad_destroys (Event.apply held e) es

/-- Largest value of a 32-bit `int`. -/
def INT_MAX : Int := 2147483647

/-- Smallest value of a 32-bit `int`. -/
def INT_MIN : Int := -2147483648

/-- The value a 32-bit two's complement `int` holds for the exact result `x`. -/
def wrap32 (x : Int) : Int :=
  (x + 2147483648) % 4294967296 - 2147483648

/-- The operation `enqueue` with every sum reduced to 32 bits. -/
def enqueue32 (q : queue_t) (data : Ptr) : Outcome Unit :=
  match q with
  | none => Outcome.ret none ()
  | some s =>
    if enqueue_wait_cond s then Outcome.wait
    else if s.shutdown then Outcome.ret (some s) ()
    else
      match store s.buffer s.tail data with
      | none => Outcome.ub
      | some b =>
        if s.capacity = 0 then Outcome.ub
        else
          Outcome.ret
            (some { s with buffer := b, tail := (wrap32 (s.tail + 1)).tmod s.capacity,
                           size := wrap32 (s.size + 1) })
            ()

/-- The operation `dequeue` with every sum and difference reduced to 32 bits. -/
def dequeue32 (q : queue_t) : Outcome Ptr :=
  match q with
  | none => Outcome.ret none NULL
  | some s =>
    if dequeue_wait_cond s then Outcome.wait
    else if s.size = 0 then Outcome.ret (some s) NULL
    else
      match load s.buffer s.head with
      | none => Outcome.ub
      | some data =>
        if s.capacity = 0 then Outcome.ub
        else
          Outcome.ret
            (some { s with head := (wrap32 (s.head + 1)).tmod s.capacity,
                           size := wrap32 (s.size - 1) })
            data

/-- Bookkeeping for one completed call made in state `s` and returning `v`: the first
list collects the items inserted by `enqueue` (calls made with the shutdown flag clear),
the second the items removed by `dequeue` (calls made on a non-empty queue). -/
def Op.record (o : Op) (s : queue) (v : Val) (h : List Ptr × List Ptr) :
    List Ptr × List Ptr :=
  match o, v with
  | Op.enq x, _ => if s.shutdown then h else (h.1 ++ [x], h.2)
  | Op.deq, Val.ptr p => if s.size = 0 then h else (h.1, h.2 ++ [p])
  | _, _ => h

/-- Performing a sequence of calls while keeping the books of `Op.record`; `none` when
some call does not complete. -/
def run_hist (s : queue) (h : List Ptr × List Ptr) :
    List Op → Option (queue × (List Ptr × List Ptr))
  | [] => some (s, h)
  | o :: os =>
    match Op.run o (some s) with
    | Outcome.ret (some t) v => run_hist t (Op.record o s v h) os
    | _ => none

/-! Arithmetic of the ring indices, the ring as a list, and the contract of the queue. -/

theorem tmod_succ (a c : Int) (h : 0 ≤ a) (h2 : a < c) :
    (a + 1).tmod c = if a + 1 = c then 0 else a + 1 := by
  split
  · next h3 => rw [h3]; simp
  · next h3 =>
    rw [Int.tmod_eq_emod (by omega) (by omega)]
    exact Int.emod_eq_of_lt (by omega) (by omega)

theorem ring_index (h c : Int) (i : Nat) (h0 : 0 ≤ h) (hc : h < c) (hi : (i : Int) < c) :
    (h + (i : Int)) % c = if h + (i : Int) < c then h + (i : Int) else h + (i : Int) - c := by
  split
  · next h3 => exact Int.emod_eq_of_lt (by omega) h3
  · next h3 =>
    rw [Int.emod_eq_sub_self_emod]
    exact Int.emod_eq_of_lt (by omega) (by omega)

theorem contents_length (s : queue) : (contents s).length = s.size.toNat := by
  simp [contents]

theorem WF.tail_range {s : queue} (hwf : WF s) : 0 ≤ s.tail ∧ s.tail < s.capacity := by
  obtain ⟨hc, hlen, hh0, hhc, hn0, hnc, ht⟩ := hwf
  rw [ht]; split <;> omega

theorem enqueue_eq (s : queue) (x : Ptr) (hwf : WF s) (hlt : s.size < s.capacity)
    (hs : s.shutdown = false) :
    enqueue (some s) x = Outcome.ret (some (pushed s x)) () := by
  have ht0 := hwf.tail_range
  obtain ⟨hc, hlen, hh0, hhc, hn0, hnc, ht⟩ := hwf
  have hne : s.size ≠ s.capacity := by omega
  have hc0 : s.capacity ≠ 0 := by omega
  have hst : store s.buffer s.tail x = some (s.buffer.set s.tail.toNat (some x)) := by
    unfold store
    rw [if_pos]
    exact ⟨ht0.1, by omega⟩
  simp only [enqueue, enqueue_wait_cond, hs, hst, tmod_succ _ _ ht0.1 ht0.2, pushed]
  simp [hne, hc0]

theorem pushed_WF (s : queue) (x : Ptr) (hwf : WF s) (hlt : s.size < s.capacity) :
    WF (pushed s x) := by
  obtain ⟨hc, hlen, hh0, hhc, hn0, hnc, ht⟩ := hwf
  refine ⟨hc, ?_, hh0, hhc, ?_, ?_, ?_⟩
  · simpa [pushed] using hlen
  · simp only [pushed]; omega
  · simp only [pushed]; omega
  · simp only [pushed]
    rw [ht]
    split <;> split <;> split <;> omega

theorem load_set_ne (b : List (Option Ptr)) (i j : Int) (v : Option Ptr)
    (hi : 0 ≤ i) (hj : 0 ≤ j) (hne : i ≠ j) :
    load (b.set i.toNat v) j = load b j := by
  unfold load
  have h1 : ¬ j < 0 := by omega
  have h2 : i.toNat ≠ j.toNat := by omega
  simp [h1, List.getD_eq_getElem?_getD, List.getElem?_set, h2]

theorem load_set_eq (b : List (Option Ptr)) (i : Int) (v : Option Ptr)
    (hi : 0 ≤ i) (hlt : i.toNat < b.length) :
    load (b.set i.toNat v) i = v := by
  unfold load
  have h1 : ¬ i < 0 := by omega
  simp [h1, List.getD_eq_getElem?_getD, List.getElem?_set, hlt]

theorem pushed_contents (s : queue) (x : Ptr) (hwf : WF s) (hlt : s.size < s.capacity) :
    contents (pushed s x) = contents s ++ [some x] := by
  have ht0 := hwf.tail_range
  obtain ⟨hc, hlen, hh0, hhc, hn0, hnc, ht⟩ := hwf
  have hsz : (s.size + 1).toNat = s.size.toNat + 1 := by omega
  simp only [contents, pushed, hsz, List.range_succ, List.map_append, List.map_cons, List.map_nil]
  congr 1
  · apply List.map_congr_left
    intro i hi
    have hi2 : (i : Int) < s.size := by
      have := List.mem_range.mp hi
      omega
    apply load_set_ne _ _ _ _ ht0.1
    · exact Int.emod_nonneg _ (by omega)
    · rw [ring_index _ _ _ hh0 hhc (by omega), ht]
      split <;> split <;> omega
  · have : (s.head + ((s.size.toNat : Nat) : Int)) % s.capacity = s.tail := by
      rw [ring_index _ _ _ hh0 hhc (by omega), ht]
      split <;> split <;> omega
    rw [this, load_set_eq _ _ _ ht0.1 (by omega)]

theorem dequeue_eq (s : queue) (y : Ptr) (hwf : WF s) (hpos : 0 < s.size)
    (hy : load s.buffer s.head = some y) :
    dequeue (some s) = Outcome.ret (some (popped s)) y := by
  obtain ⟨hc, hlen, hh0, hhc, hn0, hnc, ht⟩ := hwf
  have hne : s.size ≠ 0 := by omega
  have hc0 : s.capacity ≠ 0 := by omega
  simp only [dequeue, dequeue_wait_cond, hy, tmod_succ _ _ hh0 hhc, popped]
  simp [hne, hc0]

theorem popped_WF (s : queue) (hwf : WF s) (hpos : 0 < s.size) : WF (popped s) := by
  obtain ⟨hc, hlen, hh0, hhc, hn0, hnc, ht⟩ := hwf
  refine ⟨hc, hlen, ?_, ?_, ?_, ?_, ?_⟩
  · simp only [popped]; split <;> omega
  · simp only [popped]; split <;> omega
  · simp only [popped]; omega
  · simp only [popped]; omega
  · simp only [popped]
    rw [ht]
    split <;> split <;> split <;> omega

theorem contents_cons (s : queue) (hwf : WF s) (hpos : 0 < s.size) :
    contents s = load s.buffer s.head :: contents (popped s) := by
  obtain ⟨hc, hlen, hh0, hhc, hn0, hnc, ht⟩ := hwf
  have hsz : s.size.toNat = (s.size - 1).toNat + 1 := by omega
  have h0 : (s.head + ((0 : Nat) : Int)) % s.capacity = s.head := by
    rw [ring_index _ _ _ hh0 hhc (by omega)]
    split <;> omega
  simp only [contents, popped]
  rw [hsz, List.range_succ_eq_map, List.map_cons, h0, List.map_map]
  congr 1
  apply List.map_congr_left
  intro i hi
  have hi2 : (i : Int) + 1 < s.size := by
    have := List.mem_range.mp hi
    omega
  simp only [Function.comp, Nat.succ_eq_add_one]
  congr 1
  have e1 := ring_index s.head s.capacity (i + 1) hh0 hhc (by push_cast; omega)
  have hh1 : 0 ≤ (if s.head + 1 = s.capacity then 0 else s.head + 1) ∧
      (if s.head + 1 = s.capacity then 0 else s.head + 1) < s.capacity := by
    split <;> omega
  have e2 := ring_index (if s.head + 1 = s.capacity then 0 else s.head + 1) s.capacity i
    hh1.1 hh1.2 (by omega)
  rw [e1, e2]
  push_cast
  split <;> split <;> split <;> omega

theorem dequeue_cons (s : queue) (y : Ptr) (L : List (Option Ptr)) (hwf : WF s)
    (hL : contents s = some y :: L) :
    dequeue (some s) = Outcome.ret (some (popped s)) y ∧ WF (popped s) ∧
      contents (popped s) = L := by
  have hpos : 0 < s.size := by
    have h := contents_length s
    rw [hL] at h
    simp at h
    omega
  have hc := contents_cons s hwf hpos
  rw [hL] at hc
  injection hc with h1 h2
  exact ⟨dequeue_eq s y hwf hpos h1.symm, popped_WF s hwf hpos, h2.symm⟩

theorem enqueue_all_spec (xs : List Ptr) : ∀ (s : queue), WF s → s.shutdown = false →
    s.size + (xs.length : Int) ≤ s.capacity →
    ∃ t, enqueue_all (some s) xs = Outcome.ret (some t) () ∧ WF t ∧
      contents t = contents s ++ xs.map some ∧ t.shutdown = false ∧
      t.capacity = s.capacity ∧ t.size = s.size + (xs.length : Int) := by
  induction xs with
  | nil =>
    intro s hwf hs _
    exact ⟨s, rfl, hwf, by simp, hs, rfl, by simp⟩
  | cons x xs ih =>
    intro s hwf hs hle
    have hlt : s.size < s.capacity := by
      simp only [List.length_cons] at hle
      push_cast at hle
      omega
    have hle2 : (pushed s x).size + (xs.length : Int) ≤ (pushed s x).capacity := by
      simp only [List.length_cons] at hle
      push_cast at hle
      simp only [pushed]
      omega
    obtain ⟨t, h1, h2, h3, h4, h5, h6⟩ :=
      ih (pushed s x) (pushed_WF s x hwf hlt) (by simpa [pushed] using hs) hle2
    refine ⟨t, ?_, h2, ?_, h4, ?_, ?_⟩
    · simp only [enqueue_all, enqueue_eq s x hwf hlt hs]
      exact h1
    · rw [h3, pushed_contents s x hwf hlt]
      simp
    · rw [h5]; rfl
    · rw [h6]
      simp only [pushed, List.length_cons]
      push_cast
      omega

theorem dequeue_n_spec (L : List Ptr) : ∀ (s : queue) (R : List (Option Ptr)), WF s →
    contents s = L.map some ++ R →
    ∃ t, dequeue_n (some s) L.length = Outcome.ret (some t) L ∧ WF t ∧
      contents t = R ∧ t.shutdown = s.shutdown ∧ t.capacity = s.capacity := by
  induction L with
  | nil =>
    intro s R hwf hc
    exact ⟨s, rfl, hwf, by simpa using hc, rfl, rfl⟩
  | cons y L ih =>
    intro s R hwf hc
    obtain ⟨h1, h2, h3⟩ := dequeue_cons s y (L.map some ++ R) hwf (by simpa using hc)
    obtain ⟨t, k1, k2, k3, k4, k5⟩ := ih (popped s) R h2 h3
    refine ⟨t, ?_, k2, k3, ?_, ?_⟩
    · simp only [List.length_cons, dequeue_n, h1, k1]
    · rw [k4]; rfl
    · rw [k5]; rfl

theorem queue_init_some (env : Env) (C : Int) (s : queue)
    (h : (queue_init env C).1 = some s) :
    0 < C ∧ s = { buffer := List.replicate C.toNat none, capacity := C,
                  head := 0, tail := 0, size := 0, shutdown := false } := by
  unfold queue_init alloc_queue at h
  split at h
  · simp at h
  · next hC =>
    split at h
    · simp at h
    · split at h
      · simp at h
      · split at h
        · simp at h
        · simp only [Option.some.injEq] at h
          exact ⟨by omega, h.symm⟩

theorem queue_init_WF (env : Env) (C : Int) (s : queue)
    (h : (queue_init env C).1 = some s) :
    WF s ∧ contents s = [] ∧ s.shutdown = false ∧ s.capacity = C ∧ s.size = 0 := by
  obtain ⟨hC, rfl⟩ := queue_init_some env C s h
  refine ⟨⟨hC, by simp, by simp, hC, by simp, by simpa using hC.le, ?_⟩, by simp [contents],
    rfl, rfl, rfl⟩
  simp [hC]

/-- C1. FIFO order: on a queue freshly returned by `queue_init C`, enqueueing `N ≤ C`
items in order and then dequeuing `N` times returns exactly those items in the order
they were enqueued, and the queue is empty afterwards. -/
theorem fifo_order (env : Env) (C : Int) (q0 : queue) (xs : List Ptr)
    (hq : (queue_init env C).1 = some q0) (hN : (xs.length : Int) ≤ C) :
    ∃ q1 q2, enqueue_all (some q0) xs = Outcome.ret (some q1) () ∧
      dequeue_n (some q1) xs.length = Outcome.ret (some q2) xs ∧
      (is_empty (some q2)).2 = true := by
  obtain ⟨hwf, hc, hs, hcap, hsz⟩ := queue_init_WF env C q0 hq
  obtain ⟨q1, h1, h2, h3, h4, h5, h6⟩ :=
    enqueue_all_spec xs q0 hwf hs (by rw [hsz, hcap]; omega)
  obtain ⟨q2, k1, k2, k3, k4, k5⟩ :=
    dequeue_n_spec xs q1 [] h2 (by rw [h3, hc]; simp)
  refine ⟨q1, q2, h1, k1, ?_⟩
  have hl := contents_length q2
  rw [k3] at hl
  have h0 : q2.size = 0 := by
    have := k2.2.2.2.2.1
    simp at hl
    omega
  simp [is_empty, h0]

theorem fifo_order_witness :
    ∃ q1 q2, enqueue_all (some ⟨[none, none, none], 3, 0, 0, 0, false⟩) [11, 12, 13]
        = Outcome.ret (some q1) () ∧
      dequeue_n (some q1) 3 = Outcome.ret (some q2) [11, 12, 13] ∧
      (is_empty (some q2)).2 = true :=
  fifo_order Env.all_ok 3 ⟨[none, none, none], 3, 0, 0, 0, false⟩ [11, 12, 13]
    (by decide) (by decide)

theorem size_of_contents (s : queue) (hwf : WF s) (L : List (Option Ptr))
    (h : contents s = L) : s.size = (L.length : Int) := by
  have hl := contents_length s
  rw [h] at hl
  have := hwf.2.2.2.2.1
  omega

/-- C2. Wraparound correctness: on a fresh queue of capacity `C`, enqueueing `C` items
`xs`, dequeuing `k < C` times (which returns the first `k` of them), enqueueing `k` more
items `ys` and then dequeuing `C` times returns the rest of `xs` followed by `ys`, in
that order, after which `is_empty` is true. -/
theorem wraparound (env : Env) (C : Int) (q0 : queue) (xs ys : List Ptr)
    (hq : (queue_init env C).1 = some q0) (hx : (xs.length : Int) = C)
    (hk : ys.length < xs.length) :
    ∃ q1 q2 q3 q4, enqueue_all (some q0) xs = Outcome.ret (some q1) () ∧
      dequeue_n (some q1) ys.length = Outcome.ret (some q2) (xs.take ys.length) ∧
      enqueue_all (some q2) ys = Outcome.ret (some q3) () ∧
      dequeue_n (some q3) xs.length = Outcome.ret (some q4) (xs.drop ys.length ++ ys) ∧
      (is_empty (some q4)).2 = true := by
  obtain ⟨hwf, hc, hs, hcap, hsz⟩ := queue_init_WF env C q0 hq
  obtain ⟨q1, h1, h2, h3, h4, h5, h6⟩ :=
    enqueue_all_spec xs q0 hwf hs (by rw [hsz, hcap]; omega)
  have htl : (xs.take ys.length).length = ys.length := by
    rw [List.length_take]; omega
  obtain ⟨q2, k1, k2, k3, k4, k5⟩ :=
    dequeue_n_spec (xs.take ys.length) q1 ((xs.drop ys.length).map some) h2
      (by rw [h3, hc, List.nil_append, ← List.map_append, List.take_append_drop])
  rw [htl] at k1
  have hsz2 := size_of_contents q2 k2 _ k3
  rw [List.length_map, List.length_drop] at hsz2
  obtain ⟨q3, e1, e2, e3, e4, e5, e6⟩ :=
    enqueue_all_spec ys q2 k2 (by rw [k4, h4]) (by rw [hsz2, k5, h5, hcap]; omega)
  have hlen : (xs.drop ys.length ++ ys).length = xs.length := by
    rw [List.length_append, List.length_drop]; omega
  obtain ⟨q4, d1, d2, d3, d4, d5⟩ :=
    dequeue_n_spec (xs.drop ys.length ++ ys) q3 [] e2
      (by rw [e3, k3, List.append_nil, List.map_append])
  rw [hlen] at d1
  refine ⟨q1, q2, q3, q4, h1, k1, e1, d1, ?_⟩
  have h0 := size_of_contents q4 d2 _ d3
  simp only [List.length_nil, Nat.cast_zero] at h0
  simp [is_empty, h0]

theorem wraparound_witness :
    ∃ q1 q2 q3 q4,
      enqueue_all (some ⟨[none, none, none], 3, 0, 0, 0, false⟩) [1, 2, 3]
        = Outcome.ret (some q1) () ∧
      dequeue_n (some q1) 1 = Outcome.ret (some q2) [1] ∧
      enqueue_all (some q2) [4] = Outcome.ret (some q3) () ∧
      dequeue_n (some q3) 3 = Outcome.ret (some q4) [2, 3, 4] ∧
      (is_empty (some q4)).2 = true :=
  wraparound Env.all_ok 3 ⟨[none, none, none], 3, 0, 0, 0, false⟩ [1, 2, 3] [4]
    (by decide) (by decide) (by decide)

theorem contents_shutdown (s : queue) (b : Bool) :
    contents { s with shutdown := b } = contents s := rfl

theorem WF_shutdown (s : queue) (b : Bool) (h : WF s) : WF { s with shutdown := b } := h

theorem enqueue_cases (s : queue) (x : Ptr) (hwf : WF s) :
    enqueue (some s) x =
      if s.size = s.capacity ∧ s.shutdown = false then Outcome.wait
      else if s.shutdown = true then Outcome.ret (some s) ()
      else Outcome.ret (some (pushed s x)) () := by
  by_cases hs : s.shutdown = true
  · simp [enqueue, enqueue_wait_cond, hs]
  · have hs2 : s.shutdown = false := by simpa using hs
    by_cases hf : s.size = s.capacity
    · simp [enqueue, enqueue_wait_cond, hs2, hf]
    · have hlt : s.size < s.capacity := by
        have := hwf.2.2.2.2.2.1
        omega
      rw [enqueue_eq s x hwf hlt hs2]
      simp [hs2, hf]

theorem dequeue_empty (s : queue) (h0 : s.size = 0) :
    dequeue (some s) = if s.shutdown = true then Outcome.ret (some s) NULL else Outcome.wait := by
  by_cases hs : s.shutdown = true <;> simp [dequeue, dequeue_wait_cond, hs, h0]

theorem Inv_init (env : Env) (C : Int) (s : queue) (h : (queue_init env C).1 = some s) :
    Inv s := by
  obtain ⟨hwf, hc, _⟩ := queue_init_WF env C s h
  exact ⟨hwf, [], by simpa using hc⟩

theorem run_enq_ret (q t : queue_t) (x : Ptr) (v : Val)
    (h : Op.run (Op.enq x) q = Outcome.ret t v) : enqueue q x = Outcome.ret t () := by
  simp only [Op.run] at h
  cases he : enqueue q x with
  | ret q1 r => rw [he] at h; simp only [Outcome.ret.injEq] at h; rw [h.1]
  | wait => rw [he] at h; simp at h
  | ub => rw [he] at h; simp at h

theorem run_deq_ret (q t : queue_t) (v : Val)
    (h : Op.run Op.deq q = Outcome.ret t v) :
    ∃ p, dequeue q = Outcome.ret t p ∧ v = Val.ptr p := by
  simp only [Op.run] at h
  cases he : dequeue q with
  | ret q1 r =>
    rw [he] at h; simp only [Outcome.ret.injEq] at h
    exact ⟨r, by rw [h.1], h.2.symm⟩
  | wait => rw [he] at h; simp at h
  | ub => rw [he] at h; simp at h

theorem Inv_step (s t : queue) (o : Op) (v : Val) (hinv : Inv s)
    (h : Op.run o (some s) = Outcome.ret (some t) v) :
    Inv t ∧ t.capacity = s.capacity ∧ (s.shutdown = true → t.shutdown = true) := by
  obtain ⟨hwf, items, hit⟩ := hinv
  cases o with
  | enq x =>
    have h := run_enq_ret _ _ _ _ h
    rw [enqueue_cases s x hwf] at h
    by_cases hw : s.size = s.capacity ∧ s.shutdown = false
    · rw [if_pos hw] at h; simp at h
    · rw [if_neg hw] at h
      by_cases hsd : s.shutdown = true
      · rw [if_pos hsd] at h
        simp only [Outcome.ret.injEq, Option.some.injEq] at h
        obtain ⟨h1, _⟩ := h
        subst h1
        exact ⟨⟨hwf, items, hit⟩, rfl, id⟩
      · rw [if_neg hsd] at h
        simp only [Outcome.ret.injEq, Option.some.injEq] at h
        obtain ⟨h1, _⟩ := h
        subst h1
        have hlt : s.size < s.capacity := by
          have := hwf.2.2.2.2.2.1
          have hs2 : s.shutdown = false := by simpa using hsd
          have : s.size ≠ s.capacity := fun e => hw ⟨e, hs2⟩
          omega
        refine ⟨⟨pushed_WF s x hwf hlt, items ++ [x], ?_⟩, rfl, fun e => absurd e hsd⟩
        rw [pushed_contents s x hwf hlt, hit]
        simp
  | deq =>
    obtain ⟨p, h, _⟩ := run_deq_ret _ _ _ h
    cases items with
    | nil =>
      have h0 := size_of_contents s hwf _ hit
      simp only [List.map_nil, List.length_nil, Nat.cast_zero] at h0
      rw [dequeue_empty s h0] at h
      by_cases hsd : s.shutdown = true
      · rw [if_pos hsd] at h
        simp only [Outcome.ret.injEq, Option.some.injEq] at h
        obtain ⟨h1, _⟩ := h
        subst h1
        exact ⟨⟨hwf, [], hit⟩, rfl, id⟩
      · rw [if_neg hsd] at h; simp at h
    | cons y rest =>
      obtain ⟨h1, h2, h3⟩ := dequeue_cons s y (rest.map some) hwf (by simpa using hit)
      rw [h1] at h
      simp only [Outcome.ret.injEq, Option.some.injEq] at h
      obtain ⟨e1, _⟩ := h
      subst e1
      exact ⟨⟨h2, rest, h3⟩, rfl, id⟩
  | shut =>
    simp only [Op.run, queue_shutdown, Outcome.ret.injEq, Option.some.injEq] at h
    obtain ⟨h1, _⟩ := h
    subst h1
    exact ⟨⟨hwf, items, hit⟩, rfl, fun _ => rfl⟩
  | empty =>
    simp only [Op.run, is_empty, Outcome.ret.injEq, Option.some.injEq] at h
    obtain ⟨h1, _⟩ := h
    subst h1
    exact ⟨⟨hwf, items, hit⟩, rfl, id⟩
  | isShut =>
    simp only [Op.run, is_shutdown, Outcome.ret.injEq, Option.some.injEq] at h
    obtain ⟨h1, _⟩ := h
    subst h1
    exact ⟨⟨hwf, items, hit⟩, rfl, id⟩

theorem Reachable.inv {C : Int} {s : queue} (h : Reachable C s) : Inv s ∧ s.capacity = C := by
  induction h with
  | init env s h0 => exact ⟨Inv_init env C s h0, (queue_init_WF env C s h0).2.2.2.1⟩
  | step s t o v _ hstep ih =>
    obtain ⟨h1, h2, _⟩ := Inv_step s t o v ih.1 hstep
    exact ⟨h1, by rw [h2, ih.2]⟩

theorem dequeue_n_closed (s : queue) (hsd : s.shutdown = true) (h0 : s.size = 0) (m : Nat) :
    dequeue_n (some s) m = Outcome.ret (some s) (List.replicate m NULL) := by
  induction m with
  | zero => rfl
  | succ m ih =>
    simp only [dequeue_n, dequeue_empty s h0, hsd, if_true, ih, List.replicate_succ]

theorem closed_step (s : queue) (hsd : s.shutdown = true) (h0 : s.size = 0) (o : Op) :
    Op.run o (some s) = Outcome.ret (some s) (closed_val o) := by
  cases o with
  | enq x => simp [Op.run, enqueue, enqueue_wait_cond, hsd, closed_val]
  | deq => simp [Op.run, dequeue_empty s h0, hsd, closed_val]
  | shut =>
    have : ({ s with shutdown := true } : queue) = s := by
      cases s; simp at hsd; simp [hsd]
    simp [Op.run, queue_shutdown, closed_val, this]
  | empty => simp [Op.run, is_empty, h0, closed_val]
  | isShut => simp [Op.run, is_shutdown, hsd, closed_val]

theorem closed_run (s : queue) (hsd : s.shutdown = true) (h0 : s.size = 0) (ops : List Op) :
    run_ops (some s) ops = Outcome.ret (some s) (ops.map closed_val) := by
  induction ops with
  | nil => rfl
  | cons o ops ih => simp only [run_ops, closed_step s hsd h0 o, ih, List.map_cons]

/-- C3. Shutdown drains, then closes: in every reachable state, holding the items
`items` in FIFO order, `queue_shutdown` leaves the contents as they are, the next
`items.length` calls of `dequeue` return `items` in order, every later `dequeue`
returns `NULL`, and from then on the state no longer changes under any call, with
`is_shutdown` and `is_empty` both true. -/
theorem shutdown_drains (C : Int) (s : queue) (hr : Reachable C s) :
    ∃ (items : List Ptr) (s1 t : queue),
      contents s = items.map some ∧
      queue_shutdown (some s) = some s1 ∧ contents s1 = contents s ∧
      dequeue_n (some s1) items.length = Outcome.ret (some t) items ∧
      (∀ m, dequeue_n (some t) m = Outcome.ret (some t) (List.replicate m NULL)) ∧
      (∀ ops, ∃ vs, run_ops (some t) ops = Outcome.ret (some t) vs ∧
        ∀ p, Val.ptr p ∈ vs → p = NULL) ∧
      (is_shutdown (some t)).2 = true ∧ (is_empty (some t)).2 = true := by
  obtain ⟨⟨hwf, items, hit⟩, _⟩ := hr.inv
  obtain ⟨t, k1, k2, k3, k4, _⟩ :=
    dequeue_n_spec items { s with shutdown := true } [] (WF_shutdown s true hwf)
      (by rw [contents_shutdown, hit, List.append_nil])
  have hsd : t.shutdown = true := by rw [k4]
  have h0 : t.size = 0 := by
    have := size_of_contents t k2 _ k3
    simpa using this
  refine ⟨items, { s with shutdown := true }, t, hit, rfl, rfl, k1,
    dequeue_n_closed t hsd h0, ?_, ?_, ?_⟩
  · intro ops
    refine ⟨_, closed_run t hsd h0 ops, ?_⟩
    intro p hp
    obtain ⟨o, _, ho⟩ := List.mem_map.mp hp
    cases o <;> simp [closed_val] at ho
    exact ho.symm
  · simp [is_shutdown, hsd]
  · simp [is_empty, h0]

theorem shutdown_drains_witness :
    ∃ (items : List Ptr) (s1 t : queue),
      contents ⟨[some 1, some 2, some 3], 3, 2, 0, 1, false⟩ = items.map some ∧
      queue_shutdown (some ⟨[some 1, some 2, some 3], 3, 2, 0, 1, false⟩) = some s1 ∧
      contents s1 = contents ⟨[some 1, some 2, some 3], 3, 2, 0, 1, false⟩ ∧
      dequeue_n (some s1) items.length = Outcome.ret (some t) items ∧
      (∀ m, dequeue_n (some t) m = Outcome.ret (some t) (List.replicate m NULL)) ∧
      (∀ ops, ∃ vs, run_ops (some t) ops = Outcome.ret (some t) vs ∧
        ∀ p, Val.ptr p ∈ vs → p = NULL) ∧
      (is_shutdown (some t)).2 = true ∧ (is_empty (some t)).2 = true :=
  shutdown_drains 3 ⟨[some 1, some 2, some 3], 3, 2, 0, 1, false⟩
    (Reachable.step ⟨[some 1, some 2, some 3], 3, 1, 0, 2, false⟩ _ Op.deq (Val.ptr 2)
      (Reachable.step ⟨[some 1, some 2, some 3], 3, 0, 0, 3, false⟩ _ Op.deq (Val.ptr 1)
        (Reachable.step ⟨[some 1, some 2, none], 3, 0, 2, 2, false⟩ _ (Op.enq 3) Val.unit
          (Reachable.step ⟨[some 1, none, none], 3, 0, 1, 1, false⟩ _ (Op.enq 2) Val.unit
            (Reachable.step ⟨[none, none, none], 3, 0, 0, 0, false⟩ _ (Op.enq 1) Val.unit
              (Reachable.init Env.all_ok _ (by decide)) (by decide))
            (by decide))
          (by decide))
        (by decide))
      (by decide))

/-- C4. Post-shutdown enqueue is discarded: in every state with the shutdown flag set,
`enqueue` returns at once and leaves every field of the queue as it was, so every
later sequence of calls behaves exactly as if the discarded `enqueue` had not been made. -/
theorem enqueue_after_shutdown (s : queue) (x : Ptr) (h : s.shutdown = true) :
    enqueue (some s) x = Outcome.ret (some s) () ∧
    ∀ ops, run_ops (some s) (Op.enq x :: ops) =
      (match run_ops (some s) ops with
       | Outcome.ret q vs => Outcome.ret q (Val.unit :: vs)
       | Outcome.wait => Outcome.wait
       | Outcome.ub => Outcome.ub) := by
  have h1 : enqueue (some s) x = Outcome.ret (some s) () := by
    simp [enqueue, enqueue_wait_cond, h]
  refine ⟨h1, ?_⟩
  intro ops
  simp only [run_ops, Op.run, h1]

theorem enqueue_after_shutdown_witness :
    enqueue (some ⟨[some 7, none], 2, 0, 1, 1, true⟩) 9
        = Outcome.ret (some ⟨[some 7, none], 2, 0, 1, 1, true⟩) () ∧
    ∀ ops, run_ops (some ⟨[some 7, none], 2, 0, 1, 1, true⟩) (Op.enq 9 :: ops) =
      (match run_ops (some ⟨[some 7, none], 2, 0, 1, 1, true⟩) ops with
       | Outcome.ret q vs => Outcome.ret q (Val.unit :: vs)
       | Outcome.wait => Outcome.wait
       | Outcome.ub => Outcome.ub) :=
  enqueue_after_shutdown ⟨[some 7, none], 2, 0, 1, 1, true⟩ 9 rfl

/-- C5. Bounded occupancy: in every state reachable from `queue_init C` the capacity is
still `C > 0` and `0 ≤ size ≤ capacity`; an `enqueue` on a full queue that is not shut
down waits without inserting, and a `dequeue` on an empty queue either waits or returns
`NULL`, leaving the state (in particular `size`) untouched. -/
theorem bounded_occupancy (C : Int) (s : queue) (hr : Reachable C s) :
    0 < C ∧ s.capacity = C ∧ 0 ≤ s.size ∧ s.size ≤ s.capacity ∧
    (∀ x, s.size = s.capacity → s.shutdown = false → enqueue (some s) x = Outcome.wait) ∧
    (s.size = 0 → dequeue (some s) =
      if s.shutdown = true then Outcome.ret (some s) NULL else Outcome.wait) := by
  obtain ⟨⟨hwf, _⟩, hcap⟩ := hr.inv
  obtain ⟨hc, _, _, _, hn0, hnc, _⟩ := hwf
  refine ⟨by rw [← hcap]; exact hc, hcap, hn0, hnc, ?_, dequeue_empty s⟩
  intro x hfull hs
  simp [enqueue, enqueue_wait_cond, hfull, hs]

theorem bounded_occupancy_witness :
    (0 : Int) < 1 ∧ (⟨[some 5], 1, 0, 0, 1, false⟩ : queue).capacity = 1 ∧
    0 ≤ (⟨[some 5], 1, 0, 0, 1, false⟩ : queue).size ∧
    (⟨[some 5], 1, 0, 0, 1, false⟩ : queue).size ≤ (⟨[some 5], 1, 0, 0, 1, false⟩ : queue).capacity ∧
    (∀ x, (⟨[some 5], 1, 0, 0, 1, false⟩ : queue).size = (⟨[some 5], 1, 0, 0, 1, false⟩ : queue).capacity →
      (⟨[some 5], 1, 0, 0, 1, false⟩ : queue).shutdown = false →
      enqueue (some ⟨[some 5], 1, 0, 0, 1, false⟩) x = Outcome.wait) ∧
    ((⟨[some 5], 1, 0, 0, 1, false⟩ : queue).size = 0 →
      dequeue (some ⟨[some 5], 1, 0, 0, 1, false⟩) =
        if (⟨[some 5], 1, 0, 0, 1, false⟩ : queue).shutdown = true
        then Outcome.ret (some ⟨[some 5], 1, 0, 0, 1, false⟩) NULL else Outcome.wait) :=
  bounded_occupancy 1 ⟨[some 5], 1, 0, 0, 1, false⟩
    (Reachable.step ⟨[none], 1, 0, 0, 0, false⟩ _ (Op.enq 5) Val.unit
      (Reachable.init Env.all_ok _ (by decide)) (by decide))

/-- C6 (as stated) fails: on the queue reached from `queue_init 1` by `enqueue NULL`,
which is not shut down and holds one item, a completed `dequeue` removes that item and
returns `NULL`, the very value of the empty result. -/
theorem dequeue_null_item_counterexample :
    Reachable 1 ⟨[some NULL], 1, 0, 0, 1, false⟩ ∧
    enqueue (some ⟨[none], 1, 0, 0, 0, false⟩) NULL
      = Outcome.ret (some ⟨[some NULL], 1, 0, 0, 1, false⟩) () ∧
    dequeue (some ⟨[some NULL], 1, 0, 0, 1, false⟩)
      = Outcome.ret (some ⟨[some NULL], 1, 0, 0, 0, false⟩) NULL ∧
    ¬ ((⟨[some NULL], 1, 0, 0, 1, false⟩ : queue).shutdown = true ∧
       (⟨[some NULL], 1, 0, 0, 1, false⟩ : queue).size = 0) :=
  ⟨Reachable.step ⟨[none], 1, 0, 0, 0, false⟩ _ (Op.enq NULL) Val.unit
      (Reachable.init Env.all_ok _ (by decide)) (by decide),
    by decide, by decide, by decide⟩

/-- C6 (amended). In every reachable state, holding the items `items`: a `dequeue` on an
empty queue completes only when the queue is shut down and then returns `NULL`; a
`dequeue` on a non-empty queue returns the item at the head, exactly as it was enqueued.
Hence, when none of the buffered items is the null handle, a completed `dequeue` returns
`NULL` if and only if the queue was shut down and held no items, and a `dequeue` that
removes an item does not return `NULL`. -/
theorem dequeue_result (C : Int) (s : queue) (hr : Reachable C s) :
    ∃ items : List Ptr, contents s = items.map some ∧ s.size = (items.length : Int) ∧
      (items = [] → dequeue (some s) =
        if s.shutdown = true then Outcome.ret (some s) NULL else Outcome.wait) ∧
      (∀ y rest, items = y :: rest →
        ∃ t, dequeue (some s) = Outcome.ret (some t) y ∧ contents t = rest.map some ∧
          t.size = s.size - 1) ∧
      (NULL ∉ items → ∀ q p, dequeue (some s) = Outcome.ret q p →
        ((p = NULL ↔ s.shutdown = true ∧ s.size = 0) ∧ (0 < s.size → p ≠ NULL))) := by
  obtain ⟨⟨hwf, items, hit⟩, _⟩ := hr.inv
  have hsz := size_of_contents s hwf _ hit
  rw [List.length_map] at hsz
  refine ⟨items, hit, hsz, ?_, ?_, ?_⟩
  · intro he
    apply dequeue_empty
    rw [hsz, he]; rfl
  · intro y rest he
    subst he
    obtain ⟨h1, _, h3⟩ := dequeue_cons s y (rest.map some) hwf (by simpa using hit)
    exact ⟨popped s, h1, h3, rfl⟩
  · intro hnull q p hd
    cases items with
    | nil =>
      have h0 : s.size = 0 := by rw [hsz]; rfl
      rw [dequeue_empty s h0] at hd
      by_cases hsd : s.shutdown = true
      · rw [if_pos hsd] at hd
        simp only [Outcome.ret.injEq] at hd
        exact ⟨⟨fun _ => ⟨hsd, h0⟩, fun _ => hd.2.symm⟩, fun h => by omega⟩
      · rw [if_neg hsd] at hd; simp at hd
    | cons y rest =>
      obtain ⟨h1, _, _⟩ := dequeue_cons s y (rest.map some) hwf (by simpa using hit)
      rw [h1] at hd
      simp only [Outcome.ret.injEq] at hd
      have hy : y ≠ NULL := fun e => hnull (by simp [e])
      have hpos : s.size ≠ 0 := by
        rw [hsz, List.length_cons]; push_cast; omega
      rw [← hd.2]
      exact ⟨⟨fun e => absurd e hy, fun h => absurd h.2 hpos⟩, fun _ => hy⟩

theorem dequeue_result_witness :
    ∃ items : List Ptr, contents ⟨[some 5], 1, 0, 0, 1, false⟩ = items.map some ∧
      (⟨[some 5], 1, 0, 0, 1, false⟩ : queue).size = (items.length : Int) ∧
      (items = [] → dequeue (some ⟨[some 5], 1, 0, 0, 1, false⟩) =
        if (⟨[some 5], 1, 0, 0, 1, false⟩ : queue).shutdown = true
        then Outcome.ret (some ⟨[some 5], 1, 0, 0, 1, false⟩) NULL else Outcome.wait) ∧
      (∀ y rest, items = y :: rest →
        ∃ t, dequeue (some ⟨[some 5], 1, 0, 0, 1, false⟩) = Outcome.ret (some t) y ∧
          contents t = rest.map some ∧
          t.size = (⟨[some 5], 1, 0, 0, 1, false⟩ : queue).size - 1) ∧
      (NULL ∉ items → ∀ q p,
        dequeue (some ⟨[some 5], 1, 0, 0, 1, false⟩) = Outcome.ret q p →
        ((p = NULL ↔ (⟨[some 5], 1, 0, 0, 1, false⟩ : queue).shutdown = true ∧
            (⟨[some 5], 1, 0, 0, 1, false⟩ : queue).size = 0) ∧
         (0 < (⟨[some 5], 1, 0, 0, 1, false⟩ : queue).size → p ≠ NULL))) :=
  dequeue_result 1 ⟨[some 5], 1, 0, 0, 1, false⟩
    (Reachable.step ⟨[none], 1, 0, 0, 0, false⟩ _ (Op.enq 5) Val.unit
      (Reachable.init Env.all_ok _ (by decide)) (by decide))

/-- C7. Construction: for every capacity `≤ 0`, `queue_init` returns no queue, its only
effect being to set `errno` to `EINVAL` (nothing is allocated or initialised); for every
capacity `> 0`, when the allocations and the initialisations of the primitives succeed,
`queue_init` returns a queue whose capacity is the argument, whose size, head and tail
are `0` and whose shutdown flag is false, so `is_empty` is true and `is_shutdown` false. -/
theorem queue_init_spec (env : Env) (C : Int) :
    (C ≤ 0 → queue_init env C = (none, [Event.set_errno_EINVAL])) ∧
    (0 < C → env.malloc_queue_ok = true → env.malloc_buffer_ok = true →
      env.mutex_init_ok = true → env.not_empty_init_ok = true →
      env.not_full_init_ok = true →
      ∃ q, (queue_init env C).1 = some q ∧ q.capacity = C ∧ q.size = 0 ∧ q.head = 0 ∧
        q.tail = 0 ∧ q.shutdown = false ∧ q.buffer.length = C.toNat ∧
        (is_empty (some q)).2 = true ∧ (is_shutdown (some q)).2 = false) := by
  constructor
  · intro h
    simp [queue_init, alloc_queue, h]
  · intro h e1 e2 e3 e4 e5
    have hC : ¬ C ≤ 0 := by omega
    refine ⟨{ buffer := List.replicate C.toNat none, capacity := C,
              head := 0, tail := 0, size := 0, shutdown := false }, ?_, rfl, rfl, rfl, rfl,
            rfl, by simp, by simp [is_empty], by simp [is_shutdown]⟩
    simp [queue_init, alloc_queue, init_prims, hC, e1, e2, e3, e4, e5]

theorem queue_init_spec_witness :
    queue_init Env.all_ok (-2) = (none, [Event.set_errno_EINVAL]) ∧
    ∃ q, (queue_init Env.all_ok 10).1 = some q ∧ q.capacity = 10 ∧ q.size = 0 ∧ q.head = 0 ∧
      q.tail = 0 ∧ q.shutdown = false ∧ q.buffer.length = (10 : Int).toNat ∧
      (is_empty (some q)).2 = true ∧ (is_shutdown (some q)).2 = false :=
  ⟨(queue_init_spec Env.all_ok (-2)).1 (by decide),
   (queue_init_spec Env.all_ok 10).2 (by decide) rfl rfl rfl rfl rfl⟩

theorem enqueue_wait_iff (s : queue) (x : Ptr) :
    enqueue (some s) x = Outcome.wait ↔ enqueue_wait_cond s = true := by
  unfold enqueue
  by_cases hw : enqueue_wait_cond s = true
  · simp [hw]
  · simp only [hw, Bool.false_eq_true, if_false, iff_false]
    split
    · simp
    · split
      · simp
      · split <;> simp

theorem dequeue_wait_iff (s : queue) :
    dequeue (some s) = Outcome.wait ↔ dequeue_wait_cond s = true := by
  unfold dequeue
  by_cases hw : dequeue_wait_cond s = true
  · simp [hw]
  · simp only [hw, Bool.false_eq_true, if_false, iff_false]
    split
    · simp
    · split
      · simp
      · split <;> simp

/-- C8. Blocking conditions and shutdown release: in every state `enqueue` waits exactly
when `size == capacity` and the shutdown flag is clear, and `dequeue` waits exactly when
`size == 0` and the flag is clear; so with the flag set neither of them waits, and after
`queue_shutdown` both wait conditions are false. -/
theorem wait_conditions (s : queue) (x : Ptr) :
    (enqueue_wait_cond s = true ↔ s.size = s.capacity ∧ s.shutdown = false) ∧
    (dequeue_wait_cond s = true ↔ s.size = 0 ∧ s.shutdown = false) ∧
    (enqueue (some s) x = Outcome.wait ↔ s.size = s.capacity ∧ s.shutdown = false) ∧
    (dequeue (some s) = Outcome.wait ↔ s.size = 0 ∧ s.shutdown = false) ∧
    (s.shutdown = true →
      enqueue (some s) x ≠ Outcome.wait ∧ dequeue (some s) ≠ Outcome.wait) ∧
    (∃ t, queue_shutdown (some s) = some t ∧
      enqueue_wait_cond t = false ∧ dequeue_wait_cond t = false ∧
      enqueue (some t) x ≠ Outcome.wait ∧ dequeue (some t) ≠ Outcome.wait) := by
  have he : enqueue_wait_cond s = true ↔ s.size = s.capacity ∧ s.shutdown = false := by
    simp [enqueue_wait_cond]
  have hd : dequeue_wait_cond s = true ↔ s.size = 0 ∧ s.shutdown = false := by
    simp [dequeue_wait_cond]
  refine ⟨he, hd, (enqueue_wait_iff s x).trans he, (dequeue_wait_iff s).trans hd, ?_, ?_⟩
  · intro hsd
    constructor
    · rw [Ne, enqueue_wait_iff, he]; simp [hsd]
    · rw [Ne, dequeue_wait_iff, hd]; simp [hsd]
  · refine ⟨{ s with shutdown := true }, rfl, by simp [enqueue_wait_cond],
      by simp [dequeue_wait_cond], ?_, ?_⟩
    · rw [Ne, enqueue_wait_iff]; simp [enqueue_wait_cond]
    · rw [Ne, dequeue_wait_iff]; simp [dequeue_wait_cond]

theorem wait_conditions_witness :
    enqueue (some ⟨[some 1, some 2], 2, 0, 0, 2, true⟩) 3 ≠ Outcome.wait ∧
    dequeue (some ⟨[some 1, some 2], 2, 0, 0, 2, true⟩) ≠ Outcome.wait :=
  (wait_conditions ⟨[some 1, some 2], 2, 0, 0, 2, true⟩ 3).2.2.2.2.1 rfl

/-- C9. Idempotent shutdown: applying `queue_shutdown` twice gives exactly the state
that applying it once gives, and one `queue_shutdown` sets the shutdown flag and leaves
buffer, head, tail, size and capacity unchanged. -/
theorem shutdown_idempotent (q : queue_t) (s : queue) :
    queue_shutdown (queue_shutdown q) = queue_shutdown q ∧
    ∃ t, queue_shutdown (some s) = some t ∧ t.buffer = s.buffer ∧ t.head = s.head ∧
      t.tail = s.tail ∧ t.size = s.size ∧ t.capacity = s.capacity ∧ t.shutdown = true := by
  constructor
  · cases q <;> rfl
  · exact ⟨{ s with shutdown := true }, rfl, rfl, rfl, rfl, rfl, rfl, rfl⟩

theorem step_keeps_shutdown (s : queue) (h : s.shutdown = true) (o : Op) (q : queue_t)
    (v : Val) (hrun : Op.run o (some s) = Outcome.ret q v) :
    ∃ t, q = some t ∧ t.shutdown = true := by
  cases o with
  | enq x =>
    have h1 := run_enq_ret _ _ _ _ hrun
    simp only [enqueue, enqueue_wait_cond, h, Bool.not_true, Bool.and_false,
      Bool.false_eq_true, if_false, if_true, Outcome.ret.injEq] at h1
    exact ⟨s, h1.1.symm, h⟩
  | deq =>
    obtain ⟨p, h1, _⟩ := run_deq_ret _ _ _ hrun
    unfold dequeue at h1
    simp only at h1
    split at h1
    · simp at h1
    · split at h1
      · simp only [Outcome.ret.injEq] at h1
        exact ⟨s, h1.1.symm, h⟩
      · split at h1
        · simp at h1
        · split at h1
          · simp at h1
          · simp only [Outcome.ret.injEq] at h1
            exact ⟨_, h1.1.symm, h⟩
  | shut =>
    simp only [Op.run, queue_shutdown, Outcome.ret.injEq] at hrun
    exact ⟨_, hrun.1.symm, rfl⟩
  | empty =>
    simp only [Op.run, is_empty, Outcome.ret.injEq] at hrun
    exact ⟨s, hrun.1.symm, h⟩
  | isShut =>
    simp only [Op.run, is_shutdown, Outcome.ret.injEq] at hrun
    exact ⟨s, hrun.1.symm, h⟩

theorem run_keeps_shutdown (ops : List Op) : ∀ (s : queue), s.shutdown = true →
    ∀ (q : queue_t) (vs : List Val), run_ops (some s) ops = Outcome.ret q vs →
    ∃ t, q = some t ∧ t.shutdown = true := by
  induction ops with
  | nil =>
    intro s h q vs hrun
    simp only [run_ops, Outcome.ret.injEq] at hrun
    exact ⟨s, hrun.1.symm, h⟩
  | cons o ops ih =>
    intro s h q vs hrun
    simp only [run_ops] at hrun
    cases h1 : Op.run o (some s) with
    | ret q1 v =>
      obtain ⟨t1, rfl, ht1⟩ := step_keeps_shutdown s h o q1 v h1
      rw [h1] at hrun
      simp only at hrun
      cases h2 : run_ops (some t1) ops with
      | ret q2 vs2 =>
        rw [h2] at hrun
        simp only [Outcome.ret.injEq] at hrun
        obtain ⟨t, e, ht⟩ := ih t1 ht1 q2 vs2 h2
        exact ⟨t, by rw [← hrun.1, e], ht⟩
      | wait => rw [h2] at hrun; simp at hrun
      | ub => rw [h2] at hrun; simp at hrun
    | wait => rw [h1] at hrun; simp at hrun
    | ub => rw [h1] at hrun; simp at hrun

theorem step_completes (s : queue) (hinv : Inv s) (h : s.shutdown = true) (o : Op) :
    ∃ t v, Op.run o (some s) = Outcome.ret (some t) v := by
  obtain ⟨hwf, items, hit⟩ := hinv
  cases o with
  | enq x => exact ⟨s, Val.unit, by simp [Op.run, enqueue, enqueue_wait_cond, h]⟩
  | deq =>
    cases items with
    | nil =>
      have h0 := size_of_contents s hwf _ hit
      simp only [List.map_nil, List.length_nil, Nat.cast_zero] at h0
      exact ⟨s, Val.ptr NULL, by simp [Op.run, dequeue_empty s h0, h]⟩
    | cons y rest =>
      obtain ⟨h1, _, _⟩ := dequeue_cons s y (rest.map some) hwf (by simpa using hit)
      exact ⟨popped s, Val.ptr y, by simp [Op.run, h1]⟩
  | shut => exact ⟨{ s with shutdown := true }, Val.unit, rfl⟩
  | empty => exact ⟨s, Val.bool (s.size == 0), rfl⟩
  | isShut => exact ⟨s, Val.bool s.shutdown, rfl⟩

theorem run_completes (ops : List Op) : ∀ (s : queue), Inv s → s.shutdown = true →
    ∃ t vs, run_ops (some s) ops = Outcome.ret (some t) vs ∧ t.shutdown = true := by
  induction ops with
  | nil => intro s _ h; exact ⟨s, [], rfl, h⟩
  | cons o ops ih =>
    intro s hinv h
    obtain ⟨t1, v, h1⟩ := step_completes s hinv h o
    obtain ⟨hinv1, _, hsd1⟩ := Inv_step s t1 o v hinv h1
    obtain ⟨t, vs, h2, ht⟩ := ih t1 hinv1 (hsd1 h)
    exact ⟨t, v :: vs, by simp only [run_ops, h1, h2], ht⟩

/-- C10. Shutdown is monotonic: in every state with the shutdown flag set, no call
waits, every call that returns leaves the flag set, and so does every sequence of calls;
from a reachable state with the flag set every sequence of calls runs to completion and
ends with the flag still set. -/
theorem shutdown_monotonic (s : queue) (h : s.shutdown = true) :
    (∀ o, Op.run o (some s) ≠ Outcome.wait) ∧
    (∀ o q v, Op.run o (some s) = Outcome.ret q v → ∃ t, q = some t ∧ t.shutdown = true) ∧
    (∀ ops q vs, run_ops (some s) ops = Outcome.ret q vs →
      ∃ t, q = some t ∧ t.shutdown = true) ∧
    (∀ C, Reachable C s → ∀ ops,
      ∃ t vs, run_ops (some s) ops = Outcome.ret (some t) vs ∧ t.shutdown = true) := by
  refine ⟨?_, step_keeps_shutdown s h, fun ops => run_keeps_shutdown ops s h,
    fun C hr ops => run_completes ops s hr.inv.1 h⟩
  intro o
  cases o with
  | enq x =>
    have hne : enqueue (some s) x ≠ Outcome.wait := by
      rw [Ne, enqueue_wait_iff]; simp [enqueue_wait_cond, h]
    simp only [Op.run]
    cases he : enqueue (some s) x with
    | ret q1 r => simp
    | wait => exact absurd he hne
    | ub => simp
  | deq =>
    have hne : dequeue (some s) ≠ Outcome.wait := by
      rw [Ne, dequeue_wait_iff]; simp [dequeue_wait_cond, h]
    simp only [Op.run]
    cases he : dequeue (some s) with
    | ret q1 r => simp
    | wait => exact absurd he hne
    | ub => simp
  | shut => simp [Op.run]
  | empty => simp [Op.run]
  | isShut => simp [Op.run]

theorem shutdown_monotonic_witness :
    ∃ t vs, run_ops (some ⟨[some 5], 1, 0, 0, 1, true⟩)
        [Op.enq 6, Op.deq, Op.shut, Op.deq, Op.empty, Op.isShut]
        = Outcome.ret (some t) vs ∧ t.shutdown = true :=
  (shutdown_monotonic ⟨[some 5], 1, 0, 0, 1, true⟩ rfl).2.2.2 1
    (Reachable.step ⟨[some 5], 1, 0, 0, 1, false⟩ _ Op.shut Val.unit
      (Reachable.step ⟨[none], 1, 0, 0, 0, false⟩ _ (Op.enq 5) Val.unit
        (Reachable.init Env.all_ok _ (by decide)) (by decide))
      (by decide))
    [Op.enq 6, Op.deq, Op.shut, Op.deq, Op.empty, Op.isShut]

/-- C11. Null-handle tolerance: on the `NULL` handle `is_empty` and `is_shutdown` return
true, `dequeue` returns the empty result `NULL`, and `enqueue` (for every item),
`queue_shutdown` and `queue_destroy` return without any effect: no record comes into
being and `queue_destroy` performs no resource event. -/
theorem null_handle (x : Ptr) :
    is_empty none = (none, true) ∧ is_shutdown none = (none, true) ∧
    dequeue none = Outcome.ret none NULL ∧ enqueue none x = Outcome.ret none () ∧
    queue_shutdown none = none ∧ queue_destroy none = (none, []) :=
  ⟨rfl, rfl, rfl, rfl, rfl, rfl⟩

/-- C12. Observers are pure snapshots: in every state `is_empty` returns true exactly
when `size == 0`, `is_shutdown` returns exactly the shutdown flag, and both leave the
whole record (buffer, head, tail, size, capacity, shutdown) as it was. -/
theorem observers_pure (s : queue) :
    ((is_empty (some s)).2 = true ↔ s.size = 0) ∧ (is_empty (some s)).1 = some s ∧
    (is_shutdown (some s)).2 = s.shutdown ∧ (is_shutdown (some s)).1 = some s ∧
    Op.run Op.empty (some s) = Outcome.ret (some s) (Val.bool (s.size == 0)) ∧
    Op.run Op.isShut (some s) = Outcome.ret (some s) (Val.bool s.shutdown) := by
  exact ⟨by simp [is_empty], rfl, rfl, rfl, rfl, rfl⟩

theorem queue_init_run_cases (env : Env) (C : Int) (hC : 0 < C) :
    queue_init_run env C =
      if env.malloc_queue_ok = false ∨ env.malloc_buffer_ok = false then Outcome.ret none []
      else if env.mutex_init_ok = true ∧ env.not_empty_init_ok = true ∧
          env.not_full_init_ok = true then
        Outcome.ret (queue_init env C).1
          [Resource.prim Prim.not_full, Resource.prim Prim.not_empty,
           Resource.prim Prim.mutex, Resource.buffer_mem, Resource.queue_mem]
      else Outcome.ub := by
  have h : ¬ C ≤ 0 := by omega
  obtain ⟨a, b, c, d, e⟩ := env
  cases a <;> cases b <;> cases c <;> cases d <;> cases e <;>
    simp [queue_init_run, run_events, Event.step, queue_init, alloc_queue, init_prims, h]

/-- C13 fails on the code: `queue_init 1` is undefined at each of the three
primitive-initialisation failure points, because the clean-up destroys a primitive that
was never initialised before it frees anything; so there the call is not guaranteed to
return, nor to release the record, the array and the primitives it did initialise.  At
the two allocation failure points it returns `NULL` with nothing held, as claimed. -/
theorem constructor_failure_undefined :
    queue_init_run ⟨true, true, false, true, true⟩ 1 = Outcome.ub ∧
    queue_init_run ⟨true, true, true, false, true⟩ 1 = Outcome.ub ∧
    queue_init_run ⟨true, true, true, true, false⟩ 1 = Outcome.ub ∧
    queue_init_run ⟨false, true, true, true, true⟩ 1 = Outcome.ret none [] ∧
    queue_init_run ⟨true, false, true, true, true⟩ 1 = Outcome.ret none [] := by
  decide

/-- C20 fails on the code: `alloc_queue` with capacity `1` calls `destroy` on primitives
that were never initialised.  When `pthread_mutex_init` fails, all three primitives are
destroyed uninitialised; when the initialisation of `not_empty` fails, `not_empty` and
`not_full` are; when that of `not_full` fails, `not_full` is. -/
theorem alloc_queue_destroys_uninitialised :
    (queue_init ⟨true, true, false, true, true⟩ 1).2 =
      [Event.malloc_queue true, Event.malloc_buffer 1 true, Event.init Prim.mutex false,
       Event.destroy Prim.mutex, Event.destroy Prim.not_empty, Event.destroy Prim.not_full,
       Event.free_buffer, Event.free_queue] ∧
    bad_destroys [] (queue_init ⟨true, true, false, true, true⟩ 1).2 =
      [Prim.mutex, Prim.not_empty, Prim.not_full] ∧
    bad_destroys [] (queue_init ⟨true, true, true, false, true⟩ 1).2 =
      [Prim.not_empty, Prim.not_full] ∧
    bad_destroys [] (queue_init ⟨true, true, true, true, false⟩ 1).2 = [Prim.not_full] := by
  decide

theorem step_record (s t : queue) (o : Op) (v : Val) (items : List Ptr) (hwf : WF s)
    (hit : contents s = items.map some)
    (h : Op.run o (some s) = Outcome.ret (some t) v) :
    ∃ items2 : List Ptr, contents t = items2.map some ∧
      ∀ hist : List Ptr × List Ptr, hist.1 = hist.2 ++ items →
        (Op.record o s v hist).1 = (Op.record o s v hist).2 ++ items2 := by
  cases o with
  | enq x =>
    have h := run_enq_ret _ _ _ _ h
    rw [enqueue_cases s x hwf] at h
    by_cases hw : s.size = s.capacity ∧ s.shutdown = false
    · rw [if_pos hw] at h; simp at h
    · rw [if_neg hw] at h
      by_cases hsd : s.shutdown = true
      · rw [if_pos hsd] at h
        simp only [Outcome.ret.injEq, Option.some.injEq] at h
        obtain ⟨h1, _⟩ := h
        subst h1
        exact ⟨items, hit, fun hist hh => by simpa [Op.record, hsd] using hh⟩
      · rw [if_neg hsd] at h
        simp only [Outcome.ret.injEq, Option.some.injEq] at h
        obtain ⟨h1, _⟩ := h
        subst h1
        have hs2 : s.shutdown = false := by simpa using hsd
        have hlt : s.size < s.capacity := by
          have := hwf.2.2.2.2.2.1
          have : s.size ≠ s.capacity := fun e => hw ⟨e, hs2⟩
          omega
        refine ⟨items ++ [x], ?_, ?_⟩
        · rw [pushed_contents s x hwf hlt, hit]; simp
        · intro hist hh
          simp [Op.record, hs2, hh]
  | deq =>
    obtain ⟨p, hd, hv⟩ := run_deq_ret _ _ _ h
    subst hv
    cases items with
    | nil =>
      have h0 := size_of_contents s hwf _ hit
      simp only [List.map_nil, List.length_nil, Nat.cast_zero] at h0
      rw [dequeue_empty s h0] at hd
      by_cases hsd : s.shutdown = true
      · rw [if_pos hsd] at hd
        simp only [Outcome.ret.injEq, Option.some.injEq] at hd
        obtain ⟨h1, _⟩ := hd
        subst h1
        exact ⟨[], hit, fun hist hh => by simpa [Op.record, h0] using hh⟩
      · rw [if_neg hsd] at hd; simp at hd
    | cons y rest =>
      obtain ⟨h1, _, h3⟩ := dequeue_cons s y (rest.map some) hwf (by simpa using hit)
      rw [h1] at hd
      simp only [Outcome.ret.injEq, Option.some.injEq] at hd
      obtain ⟨e1, e2⟩ := hd
      subst e1 e2
      have hne : s.size ≠ 0 := by
        rw [size_of_contents s hwf _ hit, List.length_map, List.length_cons]
        push_cast; omega
      refine ⟨rest, h3, ?_⟩
      intro hist hh
      simp [Op.record, hne, hh]
  | shut =>
    simp only [Op.run, queue_shutdown, Outcome.ret.injEq, Option.some.injEq] at h
    obtain ⟨h1, h2⟩ := h
    subst h1 h2
    exact ⟨items, hit, fun hist hh => by simpa [Op.record] using hh⟩
  | empty =>
    simp only [Op.run, is_empty, Outcome.ret.injEq, Option.some.injEq] at h
    obtain ⟨h1, h2⟩ := h
    subst h1 h2
    exact ⟨items, hit, fun hist hh => by simpa [Op.record] using hh⟩
  | isShut =>
    simp only [Op.run, is_shutdown, Outcome.ret.injEq, Option.some.injEq] at h
    obtain ⟨h1, h2⟩ := h
    subst h1 h2
    exact ⟨items, hit, fun hist hh => by simpa [Op.record] using hh⟩

theorem run_hist_inv (ops : List Op) : ∀ (s t : queue) (hist hist2 : List Ptr × List Ptr)
    (items : List Ptr), WF s → contents s = items.map some → hist.1 = hist.2 ++ items →
    run_hist s hist ops = some (t, hist2) →
    ∃ items2 : List Ptr, contents t = items2.map some ∧ hist2.1 = hist2.2 ++ items2 := by
  induction ops with
  | nil =>
    intro s t hist hist2 items _ hit hh hrun
    simp only [run_hist, Option.some.injEq, Prod.mk.injEq] at hrun
    obtain ⟨h1, h2⟩ := hrun
    subst h1 h2
    exact ⟨items, hit, hh⟩
  | cons o ops ih =>
    intro s t hist hist2 items hwf hit hh hrun
    simp only [run_hist] at hrun
    cases h1 : Op.run o (some s) with
    | ret q v =>
      cases q with
      | none => rw [h1] at hrun; simp at hrun
      | some u =>
        rw [h1] at hrun
        simp only at hrun
        obtain ⟨hinv, _, _⟩ := Inv_step s u o v ⟨hwf, items, hit⟩ h1
        obtain ⟨items1, k1, k2⟩ := step_record s u o v items hwf hit h1
        exact ih u t _ hist2 items1 hinv.1 k1 (k2 hist hh) hrun
    | wait => rw [h1] at hrun; simp at hrun
    | ub => rw [h1] at hrun; simp at hrun

/-- C15. The ring buffer refines a FIFO list.  With the logical contents of a state read
off the ring from `head`, in every reachable state: an `enqueue` of `x` on a queue that
is neither full nor shut down completes and appends `x` to the contents; a `dequeue` on
contents `y :: L` completes, returns `y` and leaves `L`; `queue_shutdown`, `is_empty`
and `is_shutdown` leave the contents as they are.  Consequently, after any sequence of
completed calls on a fresh queue, the items inserted are the items removed, in the same
order, followed by the items still in the queue. -/
theorem ring_refines_fifo (env : Env) (C : Int) (s0 s : queue)
    (hq : (queue_init env C).1 = some s0) (hr : Reachable C s) :
    (∀ x, s.size ≠ s.capacity → s.shutdown = false →
      ∃ t, enqueue (some s) x = Outcome.ret (some t) () ∧
        contents t = contents s ++ [some x]) ∧
    (∀ y L, contents s = some y :: L →
      ∃ t, dequeue (some s) = Outcome.ret (some t) y ∧ contents t = L) ∧
    (∃ t, queue_shutdown (some s) = some t ∧ contents t = contents s) ∧
    (is_empty (some s)).1 = some s ∧ (is_shutdown (some s)).1 = some s ∧
    (∀ ops t ins outs, run_hist s0 ([], []) ops = some (t, (ins, outs)) →
      ∃ items : List Ptr, contents t = items.map some ∧ ins = outs ++ items ∧
        outs <+: ins) := by
  obtain ⟨⟨hwf, _⟩, _⟩ := hr.inv
  refine ⟨?_, ?_, ⟨{ s with shutdown := true }, rfl, rfl⟩, rfl, rfl, ?_⟩
  · intro x hne hs
    have hlt : s.size < s.capacity := by
      have := hwf.2.2.2.2.2.1
      omega
    exact ⟨pushed s x, enqueue_eq s x hwf hlt hs, pushed_contents s x hwf hlt⟩
  · intro y L hL
    obtain ⟨h1, _, h3⟩ := dequeue_cons s y L hwf hL
    exact ⟨popped s, h1, h3⟩
  · intro ops t ins outs hrun
    obtain ⟨hwf0, hc0, _⟩ := queue_init_WF env C s0 hq
    obtain ⟨items, k1, k2⟩ :=
      run_hist_inv ops s0 t ([], []) (ins, outs) [] hwf0 (by simpa using hc0) rfl hrun
    exact ⟨items, k1, k2, ⟨items, k2.symm⟩⟩

theorem ring_refines_fifo_witness :
    ∃ items : List Ptr,
      contents ⟨[some 3, some 2], 2, 0, 1, 1, false⟩ = items.map some ∧
      [1, 2, 3] = [1, 2] ++ items ∧ [1, 2] <+: [1, 2, 3] :=
  (ring_refines_fifo Env.all_ok 2 ⟨[none, none], 2, 0, 0, 0, false⟩
      ⟨[none, none], 2, 0, 0, 0, false⟩ (by decide)
      (Reachable.init Env.all_ok _ (by decide))).2.2.2.2.2
    [Op.enq 1, Op.enq 2, Op.deq, Op.enq 3, Op.deq, Op.empty]
    ⟨[some 3, some 2], 2, 0, 1, 1, false⟩ [1, 2, 3] [1, 2] (by decide)

theorem step_flag (u t : queue) (o : Op) (v : Val) (hne : o ≠ Op.shut)
    (hrun : Op.run o (some u) = Outcome.ret (some t) v) : t.shutdown = u.shutdown := by
  cases o with
  | enq x =>
    have h1 := run_enq_ret _ _ _ _ hrun
    unfold enqueue at h1
    simp only at h1
    split at h1
    · simp at h1
    · split at h1
      · simp only [Outcome.ret.injEq, Option.some.injEq] at h1
        rw [← h1.1]
      · split at h1
        · simp at h1
        · split at h1
          · simp at h1
          · simp only [Outcome.ret.injEq, Option.some.injEq] at h1
            rw [← h1.1]
  | deq =>
    obtain ⟨p, h1, _⟩ := run_deq_ret _ _ _ hrun
    unfold dequeue at h1
    simp only at h1
    split at h1
    · simp at h1
    · split at h1
      · simp only [Outcome.ret.injEq, Option.some.injEq] at h1
        rw [← h1.1]
      · split at h1
        · simp at h1
        · split at h1
          · simp at h1
          · simp only [Outcome.ret.injEq, Option.some.injEq] at h1
            rw [← h1.1]
  | shut => exact absurd rfl hne
  | empty =>
    simp only [Op.run, is_empty, Outcome.ret.injEq, Option.some.injEq] at hrun
    rw [← hrun.1]
  | isShut =>
    simp only [Op.run, is_shutdown, Outcome.ret.injEq, Option.some.injEq] at hrun
    rw [← hrun.1]

/-- C16. Closed is terminal: in every state with the shutdown flag set and `size == 0`,
every call completes without waiting and leaves the record exactly as it was (flag set,
`size == 0`); there `enqueue` discards its item and `dequeue` returns `NULL`.  From a
state with the flag clear, the only call that leads to a state with the flag set is
`queue_shutdown`, which always does. -/
theorem closed_terminal (s u : queue) (hsd : s.shutdown = true) (h0 : s.size = 0) :
    (∀ o, Op.run o (some s) = Outcome.ret (some s) (closed_val o)) ∧
    (∀ x, enqueue (some s) x = Outcome.ret (some s) ()) ∧
    dequeue (some s) = Outcome.ret (some s) NULL ∧
    queue_shutdown (some s) = some s ∧
    is_empty (some s) = (some s, true) ∧ is_shutdown (some s) = (some s, true) ∧
    (∀ o t v, u.shutdown = false → Op.run o (some u) = Outcome.ret (some t) v →
      t.shutdown = true → o = Op.shut) ∧
    (∃ t, Op.run Op.shut (some u) = Outcome.ret (some t) Val.unit ∧ t.shutdown = true) := by
  refine ⟨closed_step s hsd h0, ?_, ?_, ?_, ?_, ?_, ?_, ⟨{ u with shutdown := true }, rfl, rfl⟩⟩
  · intro x
    simp [enqueue, enqueue_wait_cond, hsd]
  · simp [dequeue_empty s h0, hsd]
  · cases s
    simp only at hsd
    simp [queue_shutdown, hsd]
  · simp [is_empty, h0]
  · simp [is_shutdown, hsd]
  · intro o t v hu hrun ht
    by_contra hne
    have := step_flag u t o v hne hrun
    rw [hu, ht] at this
    exact absurd this (by decide)

theorem closed_terminal_witness :
    (∀ o, Op.run o (some ⟨[some 4, none], 2, 1, 1, 0, true⟩)
      = Outcome.ret (some ⟨[some 4, none], 2, 1, 1, 0, true⟩) (closed_val o)) ∧
    ∀ x, enqueue (some ⟨[some 4, none], 2, 1, 1, 0, true⟩) x
      = Outcome.ret (some ⟨[some 4, none], 2, 1, 1, 0, true⟩) () :=
  ⟨(closed_terminal ⟨[some 4, none], 2, 1, 1, 0, true⟩ ⟨[none], 1, 0, 0, 0, false⟩ rfl rfl).1,
   (closed_terminal ⟨[some 4, none], 2, 1, 1, 0, true⟩ ⟨[none], 1, 0, 0, 0, false⟩ rfl rfl).2.1⟩

theorem emod_two_laps (a c : Int) (h0 : 0 ≤ a) (h2 : a < 2 * c) :
    a % c = if a < c then a else a - c := by
  split
  · next h3 => exact Int.emod_eq_of_lt h0 h3
  · next h3 =>
    rw [Int.emod_eq_sub_self_emod]
    exact Int.emod_eq_of_lt (by omega) (by omega)

/-- C17. Index consistency: in every state reachable from `queue_init C` the capacity is
still `C`, no completed call changes it, `tail == (head + size) mod capacity`, and
`head == tail` holds exactly when the queue is empty or full. -/
theorem index_consistency (C : Int) (s : queue) (hr : Reachable C s) :
    s.capacity = C ∧ 0 < C ∧
    (∀ o t v, Op.run o (some s) = Outcome.ret (some t) v → t.capacity = C) ∧
    s.tail = (s.head + s.size) % s.capacity ∧
    s.tail = (s.head + s.size).tmod s.capacity ∧
    (s.head = s.tail ↔ s.size = 0 ∨ s.size = s.capacity) := by
  obtain ⟨hinv, hcap⟩ := hr.inv
  obtain ⟨hc, hlen, hh0, hhc, hn0, hnc, ht⟩ := hinv.1
  have hmod : s.tail = (s.head + s.size) % s.capacity := by
    rw [emod_two_laps _ _ (by omega) (by omega)]
    exact ht
  refine ⟨hcap, by rw [← hcap]; exact hc, ?_, hmod, ?_, ?_⟩
  · intro o t v hrun
    rw [(Inv_step s t o v hinv hrun).2.1, hcap]
  · rw [Int.tmod_eq_emod (by omega) (by omega)]
    exact hmod
  · rw [ht]
    split <;> constructor <;> intro h <;> omega

theorem index_consistency_witness :
    (⟨[some 1, some 2, some 3], 3, 1, 1, 3, false⟩ : queue).head
        = (⟨[some 1, some 2, some 3], 3, 1, 1, 3, false⟩ : queue).tail ↔
      (⟨[some 1, some 2, some 3], 3, 1, 1, 3, false⟩ : queue).size = 0 ∨
      (⟨[some 1, some 2, some 3], 3, 1, 1, 3, false⟩ : queue).size
        = (⟨[some 1, some 2, some 3], 3, 1, 1, 3, false⟩ : queue).capacity :=
  (index_consistency 3 ⟨[some 1, some 2, some 3], 3, 1, 1, 3, false⟩
    (Reachable.step ⟨[some 1, some 2, some 3], 3, 1, 0, 2, false⟩ _ (Op.enq 1) Val.unit
      (Reachable.step ⟨[some 1, some 2, some 3], 3, 0, 0, 3, false⟩ _ Op.deq (Val.ptr 1)
        (Reachable.step ⟨[some 1, some 2, none], 3, 0, 2, 2, false⟩ _ (Op.enq 3) Val.unit
          (Reachable.step ⟨[some 1, none, none], 3, 0, 1, 1, false⟩ _ (Op.enq 2) Val.unit
            (Reachable.step ⟨[none, none, none], 3, 0, 0, 0, false⟩ _ (Op.enq 1) Val.unit
              (Reachable.init Env.all_ok _ (by decide)) (by decide))
            (by decide))
          (by decide))
        (by decide))
      (by decide))).2.2.2.2.2

theorem Inv.head_loaded {s : queue} (hinv : Inv s) (hne : s.size ≠ 0) :
    ∃ y, load s.buffer s.head = some y := by
  obtain ⟨hwf, items, hit⟩ := hinv
  have hpos : 0 < s.size := by
    have := hwf.2.2.2.2.1
    omega
  have hc := contents_cons s hwf hpos
  rw [hit] at hc
  cases items with
  | nil => simp at hc
  | cons y rest =>
    simp only [List.map_cons, List.cons.injEq] at hc
    exact ⟨y, hc.1.symm⟩

theorem Inv.no_ub {s : queue} (hinv : Inv s) (o : Op) : Op.run o (some s) ≠ Outcome.ub := by
  obtain ⟨hwf, items, hit⟩ := hinv
  cases o with
  | enq x =>
    have he : enqueue (some s) x ≠ Outcome.ub := by
      rw [enqueue_cases s x hwf]
      split_ifs <;> simp
    simp only [Op.run]
    cases h : enqueue (some s) x with
    | ret q1 r => simp
    | wait => simp
    | ub => exact absurd h he
  | deq =>
    have hd : dequeue (some s) ≠ Outcome.ub := by
      by_cases h0 : s.size = 0
      · rw [dequeue_empty s h0]
        split_ifs <;> simp
      · obtain ⟨y, hy⟩ := Inv.head_loaded ⟨hwf, items, hit⟩ h0
        have hpos : 0 < s.size := by
          have := hwf.2.2.2.2.1
          omega
        simp [dequeue_eq s y hwf hpos hy]
    simp only [Op.run]
    cases h : dequeue (some s) with
    | ret q1 r => simp
    | wait => simp
    | ub => exact absurd h hd
  | shut => simp [Op.run]
  | empty => simp [Op.run]
  | isShut => simp [Op.run]

/-- C18. Index safety: in every state reachable from `queue_init C`, `0 ≤ head < capacity`
and `0 ≤ tail < capacity`, the array has `capacity` slots and `capacity` is not zero; so
the write `buffer[tail]` of `enqueue` stays inside the array, the read `buffer[head]` of
`dequeue` on a non-empty queue finds a slot that an `enqueue` has written, and no call
runs into undefined behaviour. -/
theorem index_safety (C : Int) (s : queue) (hr : Reachable C s) :
    0 ≤ s.head ∧ s.head < s.capacity ∧ 0 ≤ s.tail ∧ s.tail < s.capacity ∧
    s.buffer.length = s.capacity.toNat ∧ s.capacity ≠ 0 ∧
    (∀ x, ∃ b, store s.buffer s.tail x = some b) ∧
    (s.size ≠ 0 → ∃ y, load s.buffer s.head = some y) ∧
    (∀ o, Op.run o (some s) ≠ Outcome.ub) := by
  obtain ⟨hinv, _⟩ := hr.inv
  have ht := hinv.1.tail_range
  obtain ⟨hc, hlen, hh0, hhc, _, _, _⟩ := hinv.1
  refine ⟨hh0, hhc, ht.1, ht.2, hlen, by omega, ?_, Inv.head_loaded hinv, Inv.no_ub hinv⟩
  intro x
  refine ⟨s.buffer.set s.tail.toNat (some x), ?_⟩
  unfold store
  rw [if_pos]
  exact ⟨ht.1, by omega⟩

theorem index_safety_witness :
    ∃ y, load (⟨[some 8, none], 2, 0, 1, 1, false⟩ : queue).buffer
      (⟨[some 8, none], 2, 0, 1, 1, false⟩ : queue).head = some y :=
  (index_safety 2 ⟨[some 8, none], 2, 0, 1, 1, false⟩
    (Reachable.step ⟨[none, none], 2, 0, 0, 0, false⟩ _ (Op.enq 8) Val.unit
      (Reachable.init Env.all_ok _ (by decide)) (by decide))).2.2.2.2.2.2.2.1 (by decide)

theorem wrap32_id (x : Int) (h1 : INT_MIN ≤ x) (h2 : x ≤ INT_MAX) : wrap32 x = x := by
  unfold INT_MIN at h1
  unfold INT_MAX at h2
  unfold wrap32
  omega

theorem enqueue32_eq (s : queue) (x : Ptr) (ht : wrap32 (s.tail + 1) = s.tail + 1)
    (hs : s.size ≠ s.capacity → wrap32 (s.size + 1) = s.size + 1) :
    enqueue32 (some s) x = enqueue (some s) x := by
  unfold enqueue32 enqueue
  simp only
  by_cases hw : enqueue_wait_cond s = true
  · simp [hw]
  · by_cases hsd : s.shutdown = true
    · simp [hw, hsd]
    · have hne : s.size ≠ s.capacity := by
        intro e
        apply hw
        simp only [Bool.not_eq_true] at hsd
        simp [enqueue_wait_cond, e, hsd]
      simp only [ht, hs hne]

theorem dequeue32_eq (s : queue) (hh : wrap32 (s.head + 1) = s.head + 1)
    (hs : s.size ≠ 0 → wrap32 (s.size - 1) = s.size - 1) :
    dequeue32 (some s) = dequeue (some s) := by
  unfold dequeue32 dequeue
  simp only
  by_cases h0 : s.size = 0
  · simp [h0]
  · simp only [hh, hs h0]

/-- C19. No integer overflow in the index arithmetic: for every capacity in `1..INT_MAX`
and every reachable state, `tail + 1` and `head + 1` lie in the range of a 32-bit `int`,
so does `size + 1` whenever `enqueue` inserts (the queue is not full), and `size - 1` is
`≥ 0` whenever `dequeue` removes (the queue is not empty); hence each 32-bit result is
the exact value and the 32-bit operations agree with the exact ones. -/
theorem no_overflow (C : Int) (s : queue) (hr : Reachable C s) (hmax : C ≤ INT_MAX) :
    (INT_MIN ≤ s.tail + 1 ∧ s.tail + 1 ≤ INT_MAX) ∧
    (INT_MIN ≤ s.head + 1 ∧ s.head + 1 ≤ INT_MAX) ∧
    (s.size ≠ s.capacity → INT_MIN ≤ s.size + 1 ∧ s.size + 1 ≤ INT_MAX) ∧
    (s.size ≠ 0 → 0 ≤ s.size - 1 ∧ s.size - 1 ≤ INT_MAX) ∧
    wrap32 (s.tail + 1) = s.tail + 1 ∧ wrap32 (s.head + 1) = s.head + 1 ∧
    (s.size ≠ s.capacity → wrap32 (s.size + 1) = s.size + 1) ∧
    (s.size ≠ 0 → wrap32 (s.size - 1) = s.size - 1) ∧
    (∀ x, enqueue32 (some s) x = enqueue (some s) x) ∧
    dequeue32 (some s) = dequeue (some s) := by
  obtain ⟨hinv, hcap⟩ := hr.inv
  have ht := hinv.1.tail_range
  obtain ⟨hc, _, hh0, hhc, hn0, hnc, _⟩ := hinv.1
  rw [← hcap] at hmax
  have hmin : INT_MIN ≤ 0 := by decide
  have b1 : INT_MIN ≤ s.tail + 1 ∧ s.tail + 1 ≤ INT_MAX := ⟨by omega, by omega⟩
  have b2 : INT_MIN ≤ s.head + 1 ∧ s.head + 1 ≤ INT_MAX := ⟨by omega, by omega⟩
  have b3 : s.size ≠ s.capacity → INT_MIN ≤ s.size + 1 ∧ s.size + 1 ≤ INT_MAX :=
    fun h => ⟨by omega, by omega⟩
  have b4 : s.size ≠ 0 → 0 ≤ s.size - 1 ∧ s.size - 1 ≤ INT_MAX :=
    fun h => ⟨by omega, by omega⟩
  have w1 := wrap32_id _ b1.1 b1.2
  have w2 := wrap32_id _ b2.1 b2.2
  have w3 : s.size ≠ s.capacity → wrap32 (s.size + 1) = s.size + 1 :=
    fun h => wrap32_id _ (b3 h).1 (b3 h).2
  have w4 : s.size ≠ 0 → wrap32 (s.size - 1) = s.size - 1 :=
    fun h => wrap32_id _ (by have := (b4 h).1; omega) (b4 h).2
  exact ⟨b1, b2, b3, b4, w1, w2, w3, w4, fun x => enqueue32_eq s x w1 w3,
    dequeue32_eq s w2 w4⟩

theorem no_overflow_witness :
    (∀ x, enqueue32 (some ⟨[none], 1, 0, 0, 0, false⟩) x
      = enqueue (some ⟨[none], 1, 0, 0, 0, false⟩) x) ∧
    dequeue32 (some ⟨[none], 1, 0, 0, 0, false⟩)
      = dequeue (some ⟨[none], 1, 0, 0, 0, false⟩) :=
  (no_overflow 1 ⟨[none], 1, 0, 0, 0, false⟩
    (Reachable.init Env.all_ok _ (by decide)) (by decide)).2.2.2.2.2.2.2.2

end Lab
